import Mathlib

/-!
# Verification of the pngstego LSB embedding/extraction core

Shallow embedding of the core of `pngstego.c`: the capacity computation
(`calculate_available_space`), the 32-bit length header write/read loops, the
payload bit-packing loop of `embed_data`, the bit-unpacking loop of
`extract_data`, and the truncation confirmation of `check_message_size`.

The decoded pixel buffer is modelled as a total function from a row index and
a byte index within the row to the byte stored there (`Img`); the C program
reads and writes `*(row_pointers[row] + col)` and those accesses become reads
and pointwise functional updates of the `Img`.  Bytes are natural numbers
(below 256 for real images).  The message file is a list of bytes consumed
from the front, mirroring `fread` of one byte at a time; the output file of
extraction is a list of bytes appended to by `fwrite`.
-/

namespace PngStego

/-- A decoded pixel buffer: row index → byte index within the row → byte.
Mirrors the `row_pointers` array of the C program. -/
abbrev Img : Type := Nat → Nat → Nat

/-- Update one byte of the pixel buffer (the effect of an assignment through
`*(row_pointers[r] + c)`). -/
def writeImg (img : Img) (r c v : Nat) : Img :=
  fun r' c' => if r' = r ∧ c' = c then v else img r' c'

/-- The LSB store of the C code: `x |= 1` when the bit is set, `x &= 0xFE`
when it is clear.  On a byte value (`b < 256`) both leave the upper seven
bits `b / 2` unchanged and overwrite bit 0. -/
def setLSB (b : Nat) (bit : Bool) : Nat :=
  2 * (b / 2) + if bit then 1 else 0

/-- The mutable state of `embed_data`: the pixel buffer, the part of the
message file not yet read by `fread`, the one-byte read `buffer`, and the
`bits_embedded` counter. -/
structure EmbedState where
  img : Img
  msg : List Nat
  buffer : Nat
  bits : Nat

/-- Payload loop of `embed_data` (pngstego.c lines 207-222) over the columns
of one row.  At each column divisible by 8 the next message byte is read into
`buffer` (`fread`), breaking out of the row when the file is exhausted; then
bit `col % 8` of `buffer` is stored into the LSB of the carrier byte at
`(r, col)` and `bits_embedded` is incremented.  `fuel` is the number of
columns left before `col` reaches `max_cols * 3`. -/
def embedCols (r : Nat) : Nat → Nat → EmbedState → EmbedState
  | _, 0, st => st
  | c, fuel+1, st =>
    if c % 8 = 0 then
      match st.msg with
      | [] => st
      | b :: rest =>
        embedCols r (c+1) fuel
          ⟨writeImg st.img r c (setLSB (st.img r c) (b.testBit (c % 8))),
           rest, b, st.bits + 1⟩
    else
      embedCols r (c+1) fuel
        ⟨writeImg st.img r c (setLSB (st.img r c) (st.buffer.testBit (c % 8))),
         st.msg, st.buffer, st.bits + 1⟩

/-- Header loop of `embed_data` (lines 193-203): for `col` in `[0, 32)`, bit
`col` of `message_length` is stored into the LSB of row 0 byte `col`. -/
def embedHeaderLoop (len : Nat) : Nat → Nat → Img → Img
  | _, 0, img => img
  | c, fuel+1, img =>
    embedHeaderLoop len (c+1) fuel (writeImg img 0 c (setLSB (img 0 c) (len.testBit c)))

/-- The row loop of `embed_data` (lines 188-223).  Row 0 first receives the
32 header bits and its payload columns start at 32; every other row starts at
column 0.  `fuel` counts the rows left before `row` reaches `max_rows`. -/
def embedRows (w len : Nat) : Nat → Nat → EmbedState → EmbedState
  | 0, _, st => st
  | fr+1, r, st =>
    if r = 0 then
      let st1 : EmbedState :=
        ⟨embedHeaderLoop len 0 32 st.img, st.msg, st.buffer, st.bits⟩
      embedRows w len fr (r+1) (embedCols 0 32 (w * 3 - 32) st1)
    else
      embedRows w len fr (r+1) (embedCols r 0 (w * 3) st)

/-- `embed_data` (lines 180-228): `len` is the global `message_length` set by
`check_message_size`, `msg` the contents of the message file.  Returns the
final state; the program prints `bits_embedded / 8` as the byte count. -/
def embed_data (w h : Nat) (img : Img) (len : Nat) (msg : List Nat) : EmbedState :=
  embedRows w len h 0 ⟨img, msg, 0, 0⟩

/-- Header read loop of `extract_data` (lines 243-248):
`message_length |= ((row0[col] & 1) << col)` for `col` in `[0, 32)`. -/
def decodeHeaderLoop (img : Img) : Nat → Nat → Nat → Nat
  | _, 0, acc => acc
  | c, fuel+1, acc => decodeHeaderLoop img (c+1) fuel (acc ||| ((img 0 c % 2) <<< c))

/-- The decoded `message_length` (global initialised to 0). -/
def decode_header (img : Img) : Nat := decodeHeaderLoop img 0 32 0

/-- The mutable state of `extract_data`: the bytes written to the output file
so far, the byte `buffer` under assembly, the `bits_extracted` counter and
the `done_extracting` flag. -/
structure ExtractState where
  out : List Nat
  buffer : Nat
  bits : Nat
  done : Bool
deriving DecidableEq

/-- Payload loop of `extract_data` (lines 251-267) over the columns of one
row.  When `(col > 32 || row > 0) && col % 8 == 0` the assembled byte is
written to the output file and the buffer reset; then, if
`bytes_read = (max_cols*row)*3 + col` equals `message_length*8 + 32`,
`done_extracting` is set and the row is abandoned; otherwise the LSB of the
carrier byte is ORed into bit `col % 8` of the buffer. -/
def extractCols (img : Img) (w msglen r : Nat) : Nat → Nat → ExtractState → ExtractState
  | _, 0, st => st
  | c, fuel+1, st =>
    let st1 : ExtractState :=
      if (32 < c ∨ 0 < r) ∧ c % 8 = 0 then ⟨st.out ++ [st.buffer], 0, st.bits, st.done⟩
      else st
    if (w * r) * 3 + c = msglen * 8 + 32 then
      ⟨st1.out, st1.buffer, st1.bits, true⟩
    else
      extractCols img w msglen r (c+1) fuel
        ⟨st1.out, st1.buffer ||| ((img r c % 2) <<< (c % 8)), st1.bits + 1, st1.done⟩

/-- The row loop of `extract_data` (lines 238-269): stops once
`done_extracting` is set; row 0 decodes the header first and its payload
columns start at 32. -/
def extractRows (img : Img) (w msglen : Nat) : Nat → Nat → ExtractState → ExtractState
  | 0, _, st => st
  | fr+1, r, st =>
    if st.done then st
    else if r = 0 then
      extractRows img w msglen fr (r+1) (extractCols img w msglen 0 32 (w * 3 - 32) st)
    else
      extractRows img w msglen fr (r+1) (extractCols img w msglen r 0 (w * 3) st)

/-- `extract_data` (lines 230-272).  Returns the decoded `message_length`
together with the final loop state (the global `message_length` stays 0 when
the image has no rows). -/
def extract_data (w h : Nat) (img : Img) : Nat × ExtractState :=
  if h = 0 then (0, ⟨[], 0, 0, false⟩)
  else
    (decode_header img, extractRows img w (decode_header img) h 0 ⟨[], 0, 0, false⟩)

/-- `calculate_available_space` (lines 294-308): sets the global
`available_space = (width * height) * 3` and prints it as a byte count. -/
def calculate_available_space (w h : Nat) : Nat := (w * h) * 3

/-- `check_message_size` (lines 310-336): `fileSize` is `st.st_size` of the
message file, `avail` the global `available_space`, `confirm` the `Y/N`
answer to the truncation prompt.  Returns the resulting `message_length`, or
`none` when the user declines and the program exits. -/
def check_message_size (fileSize avail : Nat) (confirm : Bool) : Option Nat :=
  if avail < fileSize then
    if confirm then some avail else none
  else some fileSize

/-- The embed path of `main` (lines 81-103): capacity computation, size
check with confirmation, then `embed_data`; `none` when the user declined
and nothing was embedded. -/
def embed_op (w h : Nat) (img : Img) (file : List Nat) (confirm : Bool) : Option EmbedState :=
  match check_message_size file.length (calculate_available_space w h) confirm with
  | none => none
  | some len => some (embed_data w h img len file)

/-- Modelled from the spec (§4.1): `available_bytes = available_bits / 8`
with integer division.  The C source has no such division; this definition
exists to compare the spec's capacity figure with the code's. -/
def specAvailableBytes (w h : Nat) : Nat := w * h * 3 / 8

/-- The byte assembled from the LSBs of eight consecutive carrier bytes of
one row, bit `i` taken from `(r, c+i)`, exactly as the extraction buffer
accumulates it. -/
def lsbByte (img : Img) (r c : Nat) : Nat :=
  0 ||| ((img r c % 2) <<< 0) ||| ((img r (c+1) % 2) <<< 1) ||| ((img r (c+2) % 2) <<< 2)
    ||| ((img r (c+3) % 2) <<< 3) ||| ((img r (c+4) % 2) <<< 4) ||| ((img r (c+5) % 2) <<< 5)
    ||| ((img r (c+6) % 2) <<< 6) ||| ((img r (c+7) % 2) <<< 7)

/-- Payload group `j` of an image: the byte assembled from the LSBs of the
carrier bytes at linear (scanline-major) indices `32+8j .. 32+8j+7`. -/
def grp (img : Img) (w j : Nat) : Nat :=
  lsbByte img ((32 + 8*j) / (w*3)) ((32 + 8*j) % (w*3))

/-- The LSB of the carrier byte at linear (scanline-major) index `i`. -/
def carrierLSB (w : Nat) (img : Img) (i : Nat) : Nat :=
  img (i / (w*3)) (i % (w*3)) % 2

/-- The message byte feeding column `c'` of the embedding loop when the loop
is entered at column `c`: while `c % 8 ≠ 0` the byte in the read buffer still
owes the bits of positions `c % 8 .. 7`, after which whole bytes are taken
from the remaining message. -/
def colSrc (c buf : Nat) (msg : List Nat) (c' : Nat) : Nat :=
  if c' - c < (8 - c % 8) % 8 then buf
  else msg.getD ((c' - c - (8 - c % 8) % 8) / 8) 0

/-- The bytes assembled from groups of eight carrier bytes of row `r`
starting at column `c`: group `k` covers columns `c + 8k .. c + 8k + 7`. -/
def rowGroups (img : Img) (r c g : Nat) : List Nat :=
  (List.range g).map (fun k => lsbByte img r (c + 8*k))

/-- The first `n` payload groups of an image in linear order. -/
def allGroups (img : Img) (w n : Nat) : List Nat :=
  (List.range n).map (grp img w)

/-- The all-zero pixel buffer. -/
def zeroImg : Img := fun _ _ => 0

/-- A pixel buffer that is zero on the first three bytes of row 0 and one
everywhere after them in row 0: on a 1x1 image it agrees with `zeroImg` on
every in-bounds byte. -/
def imgTail : Img := fun r c => if r = 0 ∧ 3 ≤ c then 1 else 0

/-- A pixel buffer differing from `zeroImg` only at row 0, byte 31: on a
10-pixel-wide image (30 bytes per row) that position is out of bounds. -/
def imgOOB : Img := fun r c => if r = 0 ∧ c = 31 then 1 else 0

/-- A pixel buffer whose first 32 row-0 bytes hold the header bits of `v`
in their LSBs and whose other bytes are zero. -/
def imgHdr (v : Nat) : Img :=
  fun r c => if r = 0 ∧ c < 32 then (if v.testBit c then 1 else 0) else 0

/-- Modelled from the spec (§4.3): embedding writes the `L*8` payload bits
at carrier indices `32 .. 32 + 8L - 1`, one bit per carrier byte in
scanline-major order, LSB-first within each payload byte. -/
def specBitPacker (w h : Nat) (img : Img) (len : Nat) (msg : List Nat) : Prop :=
  ∀ k, k < 8 * msg.length → 32 + k < w * h * 3 →
    carrierLSB w ((embed_data w h img len msg).img) (32 + k) =
      ((msg.getD (k / 8) 0).testBit (k % 8)).toNat

/-- Modelled from the spec (§4.2): bit `i` of the length value is written
into the LSB of the carrier byte at carrier index `i`, for `i` in `[0,32)`. -/
def specHeaderPlacement (w h : Nat) (img : Img) (len : Nat) (msg : List Nat) : Prop :=
  ∀ i, i < 32 → i < w * h * 3 →
    carrierLSB w ((embed_data w h img len msg).img) i = (len.testBit i).toNat

/-! ## Basic facts about the byte-level operations -/

lemma setLSB_mod_two (b : Nat) (bit : Bool) : setLSB b bit % 2 = bit.toNat := by
  cases bit
  · show (2 * (b / 2) + 0) % 2 = 0
    omega
  · show (2 * (b / 2) + 1) % 2 = 1
    omega

lemma setLSB_div_two (b : Nat) (bit : Bool) : setLSB b bit / 2 = b / 2 := by
  cases bit
  · show (2 * (b / 2) + 0) / 2 = b / 2
    omega
  · show (2 * (b / 2) + 1) / 2 = b / 2
    omega

lemma writeImg_apply (img : Img) (r c v r' c' : Nat) :
    writeImg img r c v r' c' = if r' = r ∧ c' = c then v else img r' c' := rfl

lemma colSrc_aligned (c buf : Nat) (msg : List Nat) (c' : Nat) (hc : c % 8 = 0) :
    colSrc c buf msg c' = msg.getD ((c' - c) / 8) 0 := by
  unfold colSrc
  rw [if_neg (by omega), show (c' - c - (8 - c % 8) % 8) / 8 = (c' - c) / 8 from by omega]

lemma colSrc_step_aligned (c : Nat) (b : Nat) (rest : List Nat) (c' : Nat)
    (hc : c % 8 = 0) (hcc : c ≤ c') :
    colSrc (c+1) b rest c' = (b :: rest).getD ((c' - c) / 8) 0 := by
  unfold colSrc
  rw [show (8 - (c+1) % 8) % 8 = 7 from by omega]
  by_cases h : c' - (c+1) < 7
  · rw [if_pos h, show (c' - c) / 8 = 0 from by omega, List.getD_cons_zero]
  · rw [if_neg h, show (c' - c) / 8 = (c' - (c+1) - 7) / 8 + 1 from by omega,
      List.getD_cons_succ]

lemma colSrc_step_mid (c buf : Nat) (msg : List Nat) (c' : Nat)
    (hc : c % 8 ≠ 0) (hcc : c + 1 ≤ c') :
    colSrc (c+1) buf msg c' = colSrc c buf msg c' := by
  have hr : 0 < c % 8 ∧ c % 8 < 8 := ⟨Nat.pos_of_ne_zero hc, Nat.mod_lt _ (by omega)⟩
  unfold colSrc
  rw [show (8 - (c+1) % 8) % 8 = (8 - c % 8) % 8 - 1 from by omega]
  by_cases h : c' - (c+1) < (8 - c % 8) % 8 - 1
  · rw [if_pos h, if_pos (by omega)]
  · rw [if_neg h, if_neg (by omega),
      show c' - (c+1) - ((8 - c % 8) % 8 - 1) = c' - c - (8 - c % 8) % 8 from by omega]

/-- Full characterisation of the per-row payload loop: entered at column `c`,
it writes the LSBs of columns `c ≤ c' < c + n` where
`n = min fuel (owed-buffer-bits + 8 * remaining message bytes)`, taking bit
`c' % 8` of the byte given by `colSrc`; it consumes
`⌈(fuel - owed) / 8⌉` message bytes and increments `bits_embedded` by `n`. -/
lemma embedCols_spec (r : Nat) : ∀ (fuel c : Nat) (st : EmbedState),
    (∀ r' c', (embedCols r c fuel st).img r' c' =
      if r' = r ∧ c ≤ c' ∧ c' < c + min fuel ((8 - c % 8) % 8 + 8 * st.msg.length)
      then setLSB (st.img r' c') ((colSrc c st.buffer st.msg c').testBit (c' % 8))
      else st.img r' c')
    ∧ (embedCols r c fuel st).msg = st.msg.drop ((fuel - (8 - c % 8) % 8 + 7) / 8)
    ∧ (embedCols r c fuel st).bits =
        st.bits + min fuel ((8 - c % 8) % 8 + 8 * st.msg.length) := by
  intro fuel
  induction fuel with
  | zero =>
    intro c st
    refine ⟨fun r' c' => ?_, ?_, ?_⟩
    · show st.img r' c' = _
      rw [if_neg (by omega)]
    · show st.msg = _
      rw [show (0 - (8 - c % 8) % 8 + 7) / 8 = 0 from by omega, List.drop_zero]
    · show st.bits = _
      omega
  | succ fuel ih =>
    intro c st
    obtain ⟨img0, msg0, buf0, bits0⟩ := st
    by_cases hc : c % 8 = 0
    · cases msg0 with
      | nil =>
        have hE : embedCols r c (fuel+1) ⟨img0, [], buf0, bits0⟩ = ⟨img0, [], buf0, bits0⟩ := by
          simp only [embedCols]
          rw [if_pos hc]
        rw [hE]
        dsimp only
        have hm : min (fuel+1) ((8 - c % 8) % 8 + 8 * ([] : List Nat).length) = 0 := by
          simp only [List.length_nil]
          omega
        refine ⟨fun r' c' => ?_, by simp, by simp only [List.length_nil]; omega⟩
        rw [hm, if_neg (by omega)]
      | cons b rest =>
        have hE : embedCols r c (fuel+1) ⟨img0, b :: rest, buf0, bits0⟩ =
            embedCols r (c+1) fuel
              ⟨writeImg img0 r c (setLSB (img0 r c) (b.testBit (c % 8))), rest, b,
               bits0 + 1⟩ := by
          simp only [embedCols]
          rw [if_pos hc]
        rw [hE]
        obtain ⟨IH1, IH2, IH3⟩ := ih (c+1)
          ⟨writeImg img0 r c (setLSB (img0 r c) (b.testBit (c % 8))), rest, b, bits0 + 1⟩
        have h1 : (c+1) % 8 = 1 := by omega
        refine ⟨fun r' c' => ?_, ?_, ?_⟩
        · rw [IH1 r' c']
          dsimp only
          by_cases hr : r' = r
          · subst hr
            by_cases h3 : c' = c
            · rw [if_neg (by omega), writeImg_apply, if_pos ⟨rfl, h3⟩,
                if_pos ⟨rfl, by omega, by simp only [List.length_cons]; omega⟩,
                colSrc_aligned _ _ _ _ hc, show (c' - c) / 8 = 0 from by omega,
                List.getD_cons_zero, h3]
            · by_cases h2 : c + 1 ≤ c' ∧
                  c' < c + 1 + min fuel ((8 - (c+1) % 8) % 8 + 8 * rest.length)
              · rw [if_pos ⟨rfl, h2.1, h2.2⟩, writeImg_apply, if_neg (by tauto),
                  if_pos ⟨rfl, by omega, by simp only [List.length_cons]; omega⟩,
                  colSrc_step_aligned c b rest c' hc (by omega),
                  colSrc_aligned _ _ _ _ hc]
              · rw [if_neg (by tauto), writeImg_apply, if_neg (by tauto),
                  if_neg (by simp only [List.length_cons]; omega)]
          · rw [if_neg (by tauto), writeImg_apply, if_neg (by tauto), if_neg (by tauto)]
        · rw [IH2]
          dsimp only
          rw [show ((fuel+1) - (8 - c % 8) % 8 + 7) / 8
              = (fuel - (8 - (c+1) % 8) % 8 + 7) / 8 + 1 from by omega,
            List.drop_succ_cons]
        · rw [IH3]
          dsimp only
          simp only [List.length_cons]
          omega
    · have hE : embedCols r c (fuel+1) ⟨img0, msg0, buf0, bits0⟩ =
          embedCols r (c+1) fuel
            ⟨writeImg img0 r c (setLSB (img0 r c) (buf0.testBit (c % 8))), msg0, buf0,
             bits0 + 1⟩ := by
        simp only [embedCols]
        rw [if_neg hc]
      rw [hE]
      obtain ⟨IH1, IH2, IH3⟩ := ih (c+1)
        ⟨writeImg img0 r c (setLSB (img0 r c) (buf0.testBit (c % 8))), msg0, buf0, bits0 + 1⟩
      have hr8 : 0 < c % 8 ∧ c % 8 < 8 := ⟨Nat.pos_of_ne_zero hc, Nat.mod_lt _ (by omega)⟩
      refine ⟨fun r' c' => ?_, ?_, ?_⟩
      · rw [IH1 r' c']
        dsimp only
        by_cases hr : r' = r
        · subst hr
          by_cases h3 : c' = c
          · rw [if_neg (by omega), writeImg_apply, if_pos ⟨rfl, h3⟩,
              if_pos ⟨rfl, by omega, by omega⟩]
            unfold colSrc
            rw [if_pos (by omega), h3]
          · by_cases h2 : c + 1 ≤ c' ∧
                c' < c + 1 + min fuel ((8 - (c+1) % 8) % 8 + 8 * msg0.length)
            · rw [if_pos ⟨rfl, h2.1, h2.2⟩, writeImg_apply, if_neg (by tauto),
                if_pos ⟨rfl, by omega, by omega⟩,
                colSrc_step_mid c buf0 msg0 c' hc (by omega)]
            · rw [if_neg (by tauto), writeImg_apply, if_neg (by tauto), if_neg (by omega)]
        · rw [if_neg (by tauto), writeImg_apply, if_neg (by tauto), if_neg (by tauto)]
      · rw [IH2]
        dsimp only
        rw [show ((fuel+1) - (8 - c % 8) % 8 + 7) / 8
            = (fuel - (8 - (c+1) % 8) % 8 + 7) / 8 from by omega]
      · rw [IH3]
        dsimp only
        omega

/-- Characterisation of the header write loop. -/
lemma embedHeaderLoop_spec (len : Nat) : ∀ (fuel c : Nat) (img : Img) (r' c' : Nat),
    embedHeaderLoop len c fuel img r' c' =
      if r' = 0 ∧ c ≤ c' ∧ c' < c + fuel then setLSB (img 0 c') (len.testBit c')
      else img r' c' := by
  intro fuel
  induction fuel with
  | zero =>
    intro c img r' c'
    show img r' c' = _
    rw [if_neg (by omega)]
  | succ fuel ih =>
    intro c img r' c'
    show embedHeaderLoop len (c+1) fuel
      (writeImg img 0 c (setLSB (img 0 c) (len.testBit c))) r' c' = _
    rw [ih]
    by_cases hr : r' = 0
    · by_cases h3 : c' = c
      · rw [if_neg (by omega), writeImg_apply, if_pos ⟨hr, h3⟩,
          if_pos ⟨hr, by omega, by omega⟩, h3]
      · by_cases h2 : c + 1 ≤ c' ∧ c' < c + 1 + fuel
        · rw [if_pos ⟨hr, h2.1, h2.2⟩, writeImg_apply, if_neg (by tauto),
            if_pos ⟨hr, by omega, by omega⟩]
        · rw [if_neg (by tauto), writeImg_apply, if_neg (by tauto), if_neg (by omega)]
    · rw [if_neg (by tauto), writeImg_apply, if_neg (by tauto), if_neg (by tauto)]

/-- Characterisation of the row loop from a starting row `r0 ≥ 1` (no header
handling): each row consumes `⌈3w/8⌉` message bytes, restarting the byte
alignment at its first column, and writes LSBs until the row or the message
runs out. -/
lemma embedRows_spec (w len : Nat) : ∀ (fr r0 : Nat) (st : EmbedState), 1 ≤ r0 →
    (∀ r' c', (embedRows w len fr r0 st).img r' c' =
      if r0 ≤ r' ∧ r' < r0 + fr ∧ c' < w*3 ∧
          8 * ((w*3+7)/8) * (r' - r0) + c' < 8 * st.msg.length
      then setLSB (st.img r' c')
        ((st.msg.getD ((w*3+7)/8 * (r' - r0) + c' / 8) 0).testBit (c' % 8))
      else st.img r' c')
    ∧ (embedRows w len fr r0 st).msg = st.msg.drop (fr * ((w*3+7)/8))
    ∧ (embedRows w len fr r0 st).bits
        = st.bits + ∑ k ∈ Finset.range fr,
            min (w*3) (8 * (st.msg.length - k * ((w*3+7)/8))) := by
  intro fr
  induction fr with
  | zero =>
    intro r0 st h1
    refine ⟨fun r' c' => ?_, ?_, ?_⟩
    · show st.img r' c' = _
      rw [if_neg (by omega)]
    · show st.msg = _
      rw [Nat.zero_mul, List.drop_zero]
    · show st.bits = _
      rw [Finset.range_zero, Finset.sum_empty, Nat.add_zero]
  | succ fr ih =>
    intro r0 st h1
    have hE : embedRows w len (fr+1) r0 st
        = embedRows w len fr (r0+1) (embedCols r0 0 (w*3) st) := by
      simp only [embedRows]
      rw [if_neg (by omega)]
    rw [hE]
    obtain ⟨A1, A2, A3⟩ := embedCols_spec r0 (w*3) 0 st
    have hhead : (8 - 0 % 8) % 8 = 0 := by omega
    rw [hhead] at A1 A2 A3
    have hd2 : ((w*3) - 0 + 7) / 8 = (w*3+7)/8 := by omega
    rw [hd2] at A2
    have hlenA : (embedCols r0 0 (w*3) st).msg.length = st.msg.length - (w*3+7)/8 := by
      rw [A2, List.length_drop]
    obtain ⟨B1, B2, B3⟩ := ih (r0+1) (embedCols r0 0 (w*3) st) (by omega)
    refine ⟨fun r' c' => ?_, ?_, ?_⟩
    · rw [B1 r' c', hlenA]
      by_cases hr : r' = r0
      · subst hr
        rw [if_neg (by omega), A1 r' c']
        by_cases h2 : c' < min (w*3) (0 + 8 * st.msg.length)
        · rw [if_pos ⟨rfl, by omega, by omega⟩,
            if_pos ⟨by omega, by omega, by omega, by simp only [Nat.sub_self] at *; omega⟩,
            colSrc_aligned _ _ _ _ (by omega),
            show (c' - 0) / 8 = (w*3+7)/8 * (r' - r') + c' / 8 from by
              simp only [Nat.sub_self, Nat.mul_zero]; omega]
        · rw [if_neg (by omega), if_neg (by omega)]
      · have e1 : (embedCols r0 0 (w*3) st).img r' c' = st.img r' c' := by
          rw [A1 r' c', if_neg (by tauto)]
        by_cases h2 : r0 + 1 ≤ r' ∧ r' < r0 + 1 + fr ∧ c' < w*3 ∧
            8 * ((w*3+7)/8) * (r' - (r0+1)) + c' < 8 * (st.msg.length - (w*3+7)/8)
        · have e2 : r' - r0 = (r' - (r0+1)) + 1 := by omega
          have e3 : (w*3+7)/8 * (r' - r0)
              = (w*3+7)/8 * (r' - (r0+1)) + (w*3+7)/8 := by
            rw [e2, Nat.mul_succ]
          have e4 : 8 * ((w*3+7)/8) * (r' - r0)
              = 8 * ((w*3+7)/8) * (r' - (r0+1)) + 8 * ((w*3+7)/8) := by
            rw [e2, Nat.mul_succ]
          rw [if_pos h2, if_pos ⟨by omega, by omega, h2.2.2.1, by omega⟩, e1, A2,
            show (w*3+7)/8 * (r' - (r0+1)) + c' / 8
              = (w*3+7)/8 * (r' - r0) + c' / 8 - (w*3+7)/8 from by omega]
          rw [List.getD_eq_getElem?_getD, List.getD_eq_getElem?_getD, List.getElem?_drop,
            show (w*3+7)/8 + ((w*3+7)/8 * (r' - r0) + c' / 8 - (w*3+7)/8)
              = (w*3+7)/8 * (r' - r0) + c' / 8 from by omega]
        · rw [if_neg h2, e1]
          by_cases h5 : r0 + 1 ≤ r'
          · have e2 : r' - r0 = (r' - (r0+1)) + 1 := by omega
            have e4 : 8 * ((w*3+7)/8) * (r' - r0)
                = 8 * ((w*3+7)/8) * (r' - (r0+1)) + 8 * ((w*3+7)/8) := by
              rw [e2, Nat.mul_succ]
            rw [if_neg (by omega)]
          · rw [if_neg (by omega)]
    · rw [B2, A2, List.drop_drop,
        show (w*3+7)/8 + fr * ((w*3+7)/8) = (fr+1) * ((w*3+7)/8) from by
          rw [Nat.succ_mul]; omega]
    · rw [B3, A3, hlenA, Finset.sum_range_succ']
      have e5 : ∀ k, min (w*3) (8 * (st.msg.length - (w*3+7)/8 - k * ((w*3+7)/8)))
          = min (w*3) (8 * (st.msg.length - (k+1) * ((w*3+7)/8))) := by
        intro k
        have e6 : (k+1) * ((w*3+7)/8) = k * ((w*3+7)/8) + (w*3+7)/8 := by
          rw [Nat.succ_mul]
        omega
      rw [Finset.sum_congr rfl (fun k _ => e5 k)]
      omega

/-- Full characterisation of `embed_data` (any width; `h ≥ 1`): the header
bits land in row 0 columns `[0,32)`; row 0 payload columns start at 32; each
later row restarts byte alignment at its column 0, consuming `⌈3w/8⌉` bytes
per full row after the `⌈(3w-32)/8⌉` bytes of row 0. -/
lemma embed_data_spec (w h : Nat) (img : Img) (len : Nat) (msg : List Nat) (hh : 1 ≤ h) :
    (∀ r' c', (embed_data w h img len msg).img r' c' =
      if r' = 0 ∧ c' < 32 then setLSB (img 0 c') (len.testBit c')
      else if r' = 0 ∧ 32 ≤ c' ∧ c' < 32 + min (w*3 - 32) (8 * msg.length) then
        setLSB (img 0 c') ((msg.getD ((c' - 32) / 8) 0).testBit (c' % 8))
      else if 1 ≤ r' ∧ r' < h ∧ c' < w*3 ∧
          8 * ((w*3+7)/8) * (r' - 1) + c' < 8 * (msg.length - (w*3 - 32 + 7) / 8) then
        setLSB (img r' c')
          (((msg.drop ((w*3 - 32 + 7) / 8)).getD ((w*3+7)/8 * (r' - 1) + c' / 8) 0).testBit
            (c' % 8))
      else img r' c')
    ∧ (embed_data w h img len msg).bits
        = min (w*3 - 32) (8 * msg.length)
          + ∑ k ∈ Finset.range (h-1),
              min (w*3) (8 * ((msg.length - (w*3 - 32 + 7) / 8) - k * ((w*3+7)/8))) := by
  cases h with
  | zero => omega
  | succ hh' =>
  have hE : embed_data w (hh'+1) img len msg
      = embedRows w len hh' 1
          (embedCols 0 32 (w*3 - 32) ⟨embedHeaderLoop len 0 32 img, msg, 0, 0⟩) := by
    show embedRows w len (hh'+1) 0 ⟨img, msg, 0, 0⟩ = _
    simp only [embedRows]
    rw [if_pos trivial]
  rw [hE]
  obtain ⟨A1, A2, A3⟩ := embedCols_spec 0 (w*3 - 32) 32 ⟨embedHeaderLoop len 0 32 img, msg, 0, 0⟩
  dsimp only at A1 A2 A3
  have hhead : (8 - 32 % 8) % 8 = 0 := by omega
  rw [hhead] at A1 A2 A3
  have hd2 : (w*3 - 32 - 0 + 7) / 8 = (w*3 - 32 + 7) / 8 := by omega
  rw [hd2] at A2
  set stB := embedCols 0 32 (w*3 - 32) ⟨embedHeaderLoop len 0 32 img, msg, 0, 0⟩ with hstB
  have hlenB : stB.msg.length = msg.length - (w*3 - 32 + 7) / 8 := by
    rw [A2, List.length_drop]
  obtain ⟨B1, B2, B3⟩ := embedRows_spec w len hh' 1 stB (by omega)
  constructor
  · intro r' c'
    rw [B1 r' c', hlenB, A2]
    by_cases hr : r' = 0
    · rw [if_neg (by omega)]
      rw [A1 r' c']
      by_cases h2 : 32 ≤ c' ∧ c' < 32 + min (w*3 - 32) (0 + 8 * msg.length)
      · rw [if_pos ⟨hr, h2.1, h2.2⟩, colSrc_aligned _ _ _ _ (by omega),
          embedHeaderLoop_spec len 32 0 img, if_neg (by omega), hr,
          if_neg (by omega), if_pos ⟨rfl, by omega, by omega⟩]
      · rw [if_neg (by tauto), embedHeaderLoop_spec len 32 0 img, hr]
        by_cases h3 : c' < 32
        · rw [if_pos ⟨rfl, by omega, by omega⟩, if_pos ⟨rfl, h3⟩]
        · rw [if_neg (by omega), if_neg (by omega), if_neg (by omega), if_neg (by omega)]
    · have e1 : stB.img r' c' = img r' c' := by
        rw [A1 r' c', if_neg (by tauto), embedHeaderLoop_spec len 32 0 img,
          if_neg (by tauto)]
      by_cases h2 : 1 ≤ r' ∧ r' < 1 + hh' ∧ c' < w*3 ∧
          8 * ((w*3+7)/8) * (r' - 1) + c' < 8 * (msg.length - (w*3 - 32 + 7) / 8)
      · rw [if_pos h2, e1, if_neg (by tauto), if_neg (by tauto),
          if_pos ⟨h2.1, by omega, h2.2.2.1, h2.2.2.2⟩]
      · rw [if_neg h2, e1, if_neg (by tauto), if_neg (by tauto), if_neg (by omega)]
  · rw [B3, A3, hlenB, show hh' + 1 - 1 = hh' from rfl]
    omega

lemma setLSB_getD_congr (v e : Nat) (msg : List Nat) (A B : Nat) (h : A = B) :
    setLSB v ((msg.getD A 0).testBit e) = setLSB v ((msg.getD B 0).testBit e) := by
  rw [h]

lemma getD_drop (l : List Nat) (n k : Nat) :
    (l.drop n).getD k 0 = l.getD (n + k) 0 := by
  rw [List.getD_eq_getElem?_getD, List.getD_eq_getElem?_getD, List.getElem?_drop]

/-- Aligned specialisation of the embedding: when `8 ∣ 3w` no bits are lost
at row boundaries, so the carrier byte at linear index `p = 3w·r + c` in
`[32, 32 + 8L)` receives bit `(p - 32) % 8 = c % 8` of message byte
`(p - 32) / 8`. -/
lemma embed_data_spec_aligned (w h : Nat) (img : Img) (len : Nat) (msg : List Nat)
    (hW8 : w*3 % 8 = 0) (hW32 : 32 ≤ w*3) (hh : 1 ≤ h) :
    ∀ r' c', (embed_data w h img len msg).img r' c' =
      if r' = 0 ∧ c' < 32 then setLSB (img 0 c') (len.testBit c')
      else if r' < h ∧ c' < w*3 ∧ 32 ≤ w*3*r' + c' ∧ w*3*r' + c' < 32 + 8 * msg.length then
        setLSB (img r' c') ((msg.getD ((w*3*r' + c' - 32) / 8) 0).testBit (c' % 8))
      else img r' c' := by
  intro r' c'
  obtain ⟨E1, _⟩ := embed_data_spec w h img len msg hh
  rw [E1 r' c']
  by_cases hr : r' = 0
  · subst hr
    split_ifs with hx1 hx2 hx3 hx4
    all_goals try omega
    all_goals try (simp only [false_and] at *)
    all_goals try (apply setLSB_getD_congr; omega)
  · obtain ⟨r'', rfl⟩ : ∃ r'', r' = r'' + 1 := ⟨r' - 1, by omega⟩
    have e0 : (w*3+7)/8 = w*3/8 := by omega
    have e8 : 8 * (w*3/8) = w*3 := by omega
    have hL1 : 8 * ((w*3+7)/8) * (r''+1-1) = w*3*r'' := by
      rw [show r''+1-1 = r'' from rfl, e0]
      calc 8 * (w*3/8) * r'' = (8 * (w*3/8)) * r'' := by ring
        _ = w*3*r'' := by rw [e8]
    have hL2 : (w*3+7)/8 * (r''+1-1) = w*3/8 * r'' := by
      rw [show r''+1-1 = r'' from rfl, e0]
    have hB : w*3*(r''+1) = w*3*r'' + w*3 := by ring
    have hC : w*3*r'' = 8*(w*3/8*r'') := by
      calc w*3*r'' = (8*(w*3/8))*r'' := by rw [e8]
        _ = 8*(w*3/8*r'') := by ring
    split_ifs with hx1 hx2 hx3 hx4
    all_goals try omega
    all_goals try (simp only [false_and] at *)
    all_goals try (rw [getD_drop, hL2])
    all_goals try (apply setLSB_getD_congr; omega)

/-- Closed form of the per-row minimum sum in the aligned case. -/
lemma aligned_bits_sum (W L : Nat) (hW : W % 8 = 0) : ∀ m,
    ∑ k ∈ Finset.range m, min W (8 * (L - k * ((W+7)/8))) = min (m * W) (8 * L) := by
  intro m
  induction m with
  | zero => simp
  | succ m ih =>
    rw [Finset.sum_range_succ, ih]
    have e1 : (m+1) * W = m * W + W := by rw [Nat.succ_mul]
    have e3 : 8 * (W/8) = W := by omega
    have e4 : m * ((W+7)/8) = m * (W/8) := by rw [show (W+7)/8 = W/8 from by omega]
    have e2 : 8 * (m * (W/8)) = m * W :=
      calc 8 * (m * (W/8)) = m * (8 * (W/8)) := by ring
        _ = m * W := by rw [e3]
    omega

/-- Total `bits_embedded` for an aligned image: everything that fits. -/
lemma embed_data_bits_aligned (w h : Nat) (img : Img) (len : Nat) (msg : List Nat)
    (hW8 : w*3 % 8 = 0) (hW32 : 32 ≤ w*3) (hh : 1 ≤ h) :
    (embed_data w h img len msg).bits = min (w*3*h - 32) (8 * msg.length) := by
  obtain ⟨_, E2⟩ := embed_data_spec w h img len msg hh
  rw [E2, show (w*3-32+7)/8 = (w*3-32)/8 from by omega,
    aligned_bits_sum (w*3) (msg.length - (w*3-32)/8) hW8 (h-1)]
  have h8D : 8 * ((w*3-32)/8) = w*3 - 32 := by omega
  have e1 : (h-1) * (w*3) + (w*3) = h * (w*3) := by
    obtain ⟨h'', rfl⟩ : ∃ h'', h = h'' + 1 := ⟨h - 1, by omega⟩
    rw [show h'' + 1 - 1 = h'' from rfl, Nat.succ_mul]
  have e2 : h * (w*3) = w*3*h := by ring
  omega

/-! ## The length header decoder -/

lemma testBit_le_one (b k : Nat) (hb : b ≤ 1) : (b.testBit k = true) ↔ (k = 0 ∧ b = 1) := by
  interval_cases b
  · simp [Nat.zero_testBit]
  · cases k with
    | zero => simp [Nat.testBit_zero]
    | succ k =>
      rw [Nat.testBit_succ]
      show Nat.testBit 0 k = true ↔ _
      simp [Nat.zero_testBit]

lemma decodeHeaderLoop_testBit (img : Img) : ∀ (fuel c acc i : Nat),
    ((decodeHeaderLoop img c fuel acc).testBit i = true)
      ↔ (acc.testBit i = true ∨ (c ≤ i ∧ i < c + fuel ∧ img 0 i % 2 = 1)) := by
  intro fuel
  induction fuel with
  | zero =>
    intro c acc i
    show acc.testBit i = true ↔ _
    constructor
    · exact fun h => Or.inl h
    · rintro (h | h)
      · exact h
      · omega
  | succ fuel ih =>
    intro c acc i
    show ((decodeHeaderLoop img (c+1) fuel (acc ||| ((img 0 c % 2) <<< c))).testBit i = true) ↔ _
    rw [ih]
    rw [Nat.testBit_lor, Bool.or_eq_true]
    have hT : ((((img 0 c % 2)) <<< c).testBit i = true) ↔ (i = c ∧ img 0 c % 2 = 1) := by
      rw [Nat.testBit_shiftLeft, Bool.and_eq_true, decide_eq_true_eq,
        testBit_le_one _ _ (by omega)]
      constructor
      · rintro ⟨h1, h2, h3⟩
        exact ⟨by omega, h3⟩
      · rintro ⟨h1, h2⟩
        exact ⟨by omega, by omega, h2⟩
    rw [hT]
    constructor
    · rintro ((h | ⟨h1, h2⟩) | ⟨h1, h2, h3⟩)
      · exact Or.inl h
      · right
        refine ⟨by omega, by omega, ?_⟩
        rw [h1]
        exact h2
      · exact Or.inr ⟨by omega, by omega, h3⟩
    · rintro (h | ⟨h1, h2, h3⟩)
      · exact Or.inl (Or.inl h)
      · by_cases hic : i = c
        · left
          right
          refine ⟨hic, ?_⟩
          rw [← hic]
          exact h3
        · exact Or.inr ⟨by omega, by omega, h3⟩

lemma decode_header_testBit (img : Img) (i : Nat) :
    (((decode_header img).testBit i) = true) ↔ (i < 32 ∧ img 0 i % 2 = 1) := by
  unfold decode_header
  rw [decodeHeaderLoop_testBit]
  rw [Nat.zero_testBit]
  constructor
  · rintro (h | ⟨h1, h2, h3⟩)
    · simp at h
    · exact ⟨by omega, h3⟩
  · rintro ⟨h1, h2⟩
    exact Or.inr ⟨by omega, by omega, h2⟩

/-- If the row-0 LSBs carry the bits of `len < 2^32`, the decoder returns
exactly `len`. -/
lemma decode_header_eq (img : Img) (len : Nat) (hlen : len < 2^32)
    (h : ∀ c, c < 32 → img 0 c % 2 = (len.testBit c).toNat) :
    decode_header img = len := by
  apply Nat.eq_of_testBit_eq
  intro i
  have hd := decode_header_testBit img i
  by_cases hi : i < 32
  · have hc := h i hi
    cases hlb : len.testBit i with
    | false =>
      rw [hlb] at hc
      have : ¬ ((decode_header img).testBit i = true) := by
        intro hq
        have := (hd.mp hq).2
        rw [hc] at this
        simp [Bool.toNat] at this
      rw [Bool.not_eq_true] at this
      rw [this]
    | true =>
      rw [hlb] at hc
      have : (decode_header img).testBit i = true := by
        apply hd.mpr
        refine ⟨hi, ?_⟩
        rw [hc]
        rfl
      rw [this]
  · have h1 : len.testBit i = false := by
      apply Nat.testBit_lt_two_pow
      exact Nat.lt_of_lt_of_le hlen (Nat.pow_le_pow_right (by omega) (by omega))
    have h2 : ¬ ((decode_header img).testBit i = true) := by
      intro hq
      exact hi (hd.mp hq).1
    rw [Bool.not_eq_true] at h2
    rw [h1, h2]

/-- Decoding the image produced by the header write loop recovers the length
written, for any length below `2^32`. -/
lemma decode_header_embedHeaderLoop (img : Img) (v : Nat) (hv : v < 2^32) :
    decode_header (embedHeaderLoop v 0 32 img) = v := by
  apply decode_header_eq _ _ hv
  intro c hc
  rw [embedHeaderLoop_spec v 32 0 img 0 c, if_pos ⟨rfl, by omega, by omega⟩, setLSB_mod_two]

/-- Decoding the header of a fully embedded image recovers `message_length`. -/
lemma decode_header_embed (w h : Nat) (img : Img) (len : Nat) (msg : List Nat)
    (hh : 1 ≤ h) (hlen : len < 2^32) :
    decode_header (embed_data w h img len msg).img = len := by
  apply decode_header_eq _ _ hlen
  intro c hc
  obtain ⟨E1, _⟩ := embed_data_spec w h img len msg hh
  rw [E1 0 c, if_pos ⟨rfl, hc⟩, setLSB_mod_two]

/-! ## The extraction loop -/

/-- A terminating step of the extraction loop at a column where the flush
condition holds: the pending byte is written out and `done_extracting` set. -/
lemma extractCols_done (img : Img) (w M r c fuel : Nat) (st : ExtractState)
    (hf : 1 ≤ fuel) (hfl : 32 < c ∨ 0 < r) (hc8 : c % 8 = 0)
    (he : (w*r)*3 + c = M*8 + 32) :
    extractCols img w M r c fuel st = ⟨st.out ++ [st.buffer], 0, st.bits, true⟩ := by
  cases fuel with
  | zero => omega
  | succ fuel =>
    simp only [extractCols]
    rw [if_pos he, if_pos (And.intro hfl hc8)]

/-- The terminating step at row 0, column 32, where the flush condition does
not hold: nothing is written out. -/
lemma extractCols_done_noflush (img : Img) (w M c fuel : Nat) (st : ExtractState)
    (hf : 1 ≤ fuel) (hfl : ¬(32 < c ∨ 0 < 0))
    (he : (w*0)*3 + c = M*8 + 32) :
    extractCols img w M 0 c fuel st = ⟨st.out, st.buffer, st.bits, true⟩ := by
  cases fuel with
  | zero => omega
  | succ fuel =>
    simp only [extractCols]
    rw [if_pos he, if_neg (fun hco => hfl hco.1)]

/-- One group of eight columns of the extraction loop, away from the
termination position: the flush (if its condition holds at the first column)
followed by eight LSB reads assembling `lsbByte`. -/
lemma extractCols_group (img : Img) (w M r : Nat) (c fuel : Nat) (st : ExtractState)
    (h8 : c % 8 = 0) (hp8 : (w*r)*3 % 8 = 0) (hne : (w*r)*3 + c ≠ M*8 + 32)
    (hb : (32 < c ∨ 0 < r) ∨ st.buffer = 0) :
    extractCols img w M r c (fuel+8) st =
      extractCols img w M r (c+8) fuel
        ⟨(if 32 < c ∨ 0 < r then st.out ++ [st.buffer] else st.out),
         lsbByte img r c, st.bits + 8, st.done⟩ := by
  obtain ⟨out0, buf0, bits0, done0⟩ := st
  obtain ⟨q, rfl⟩ : ∃ q, c = 8*q := ⟨c/8, by omega⟩
  have e1 : (8*q+1) % 8 = 1 := by omega
  have e2 : (8*q+2) % 8 = 2 := by omega
  have e3 : (8*q+3) % 8 = 3 := by omega
  have e4 : (8*q+4) % 8 = 4 := by omega
  have e5 : (8*q+5) % 8 = 5 := by omega
  have e6 : (8*q+6) % 8 = 6 := by omega
  have e7 : (8*q+7) % 8 = 7 := by omega
  have e0 : (8*q) % 8 = 0 := by omega
  have f0 : ¬((w*r)*3 + 8*q = M*8 + 32) := hne
  have f1 : ¬((w*r)*3 + (8*q+1) = M*8 + 32) := by omega
  have f2 : ¬((w*r)*3 + (8*q+2) = M*8 + 32) := by omega
  have f3 : ¬((w*r)*3 + (8*q+3) = M*8 + 32) := by omega
  have f4 : ¬((w*r)*3 + (8*q+4) = M*8 + 32) := by omega
  have f5 : ¬((w*r)*3 + (8*q+5) = M*8 + 32) := by omega
  have f6 : ¬((w*r)*3 + (8*q+6) = M*8 + 32) := by omega
  have f7 : ¬((w*r)*3 + (8*q+7) = M*8 + 32) := by omega
  rcases hb with hfl | hbz
  · rw [if_pos hfl]
    simp only [extractCols, lsbByte, Nat.add_assoc]
    simp [e0, e1, e2, e3, e4, e5, e6, e7, f0, f1, f2, f3, f4, f5, f6, f7, hfl,
      Nat.add_assoc]
  · by_cases hfl : 32 < 8*q ∨ 0 < r
    · rw [if_pos hfl]
      simp only [extractCols, lsbByte, Nat.add_assoc]
      simp [e0, e1, e2, e3, e4, e5, e6, e7, f0, f1, f2, f3, f4, f5, f6, f7, hfl,
        Nat.add_assoc]
    · rw [if_neg hfl]
      subst hbz
      simp only [extractCols, lsbByte, Nat.add_assoc]
      simp [e0, e1, e2, e3, e4, e5, e6, e7, f0, f1, f2, f3, f4, f5, f6, f7, hfl,
        Nat.add_assoc]

lemma rowGroups_succ (img : Img) (r c k : Nat) :
    rowGroups img r c (k+1) = lsbByte img r c :: rowGroups img r (c+8) k := by
  unfold rowGroups
  rw [List.range_succ_eq_map, List.map_cons, List.map_map]
  congr 1
  apply List.map_congr_left
  intro j _
  show lsbByte img r (c + 8 * (j+1)) = lsbByte img r (c + 8 + 8*j)
  congr 1
  omega

/-- One full row tail of the extraction loop, entered at a flush-active
aligned column `c` at or before the termination position.  Either the
termination position falls inside the remaining columns (the loop flushes the
pending byte plus one byte per completed group and stops), or the row
completes with the last group left pending in the buffer. -/
lemma extractCols_row_spec (img : Img) (w M r : Nat) : ∀ (g c : Nat) (st : ExtractState),
    c % 8 = 0 → (w*r)*3 % 8 = 0 → (32 < c ∨ 0 < r) → st.done = false →
    (w*r)*3 + c ≤ M*8 + 32 →
    extractCols img w M r c (8*g) st =
      (if M*8 + 32 < (w*r)*3 + c + 8*g then
        ⟨st.out ++ st.buffer :: rowGroups img r c ((M*8 + 32 - ((w*r)*3 + c)) / 8),
         0, st.bits + (M*8 + 32 - ((w*r)*3 + c)), true⟩
      else if g = 0 then st
      else
        ⟨st.out ++ st.buffer :: rowGroups img r c (g - 1),
         lsbByte img r (c + 8*(g-1)), st.bits + 8*g, false⟩) := by
  intro g
  induction g with
  | zero =>
    intro c st h8 hp8 hfl hdone hPT
    show st = _
    rw [if_neg (by omega), if_pos rfl]
  | succ g ih =>
    intro c st h8 hp8 hfl hdone hPT
    rw [show 8*(g+1) = 8*g + 8 from by ring]
    by_cases hPe : (w*r)*3 + c = M*8 + 32
    · rw [extractCols_done img w M r c (8*g+8) st (by omega) hfl h8 hPe,
        if_pos (by omega),
        show M*8 + 32 - ((w*r)*3 + c) = 0 from by omega, Nat.zero_div,
        ExtractState.mk.injEq]
      refine ⟨?_, rfl, by omega, rfl⟩
      simp [rowGroups]
    · have hlt : (w*r)*3 + c + 8 ≤ M*8 + 32 := by omega
      rw [extractCols_group img w M r c (8*g) st h8 hp8 hPe (Or.inl hfl), if_pos hfl,
        ih (c+8) ⟨st.out ++ [st.buffer], lsbByte img r c, st.bits + 8, st.done⟩
          (by omega) hp8 (hfl.imp (fun hx => by omega) id) hdone (by omega)]
      dsimp only
      by_cases hA : M*8 + 32 < (w*r)*3 + c + (8*g + 8)
      · rw [if_pos (show M*8 + 32 < (w*r)*3 + (c+8) + 8*g from by omega), if_pos hA,
          show (M*8 + 32 - ((w*r)*3 + c)) / 8
            = (M*8 + 32 - ((w*r)*3 + (c+8))) / 8 + 1 from by omega,
          rowGroups_succ, ExtractState.mk.injEq]
        refine ⟨?_, rfl, by omega, rfl⟩
        simp
      · rw [if_neg (show ¬(M*8 + 32 < (w*r)*3 + (c+8) + 8*g) from by omega), if_neg hA,
          if_neg (show ¬(g + 1 = 0) from by omega)]
        by_cases hg : g = 0
        · subst hg
          rw [if_pos rfl, ExtractState.mk.injEq]
          refine ⟨?_, ?_, by omega, hdone⟩
          · simp [rowGroups]
          · congr 1 <;> omega
        · rw [if_neg hg]
          obtain ⟨g', rfl⟩ : ∃ g', g = g' + 1 := ⟨g - 1, by omega⟩
          rw [show g' + 1 + 1 - 1 = g' + 1 from rfl, show g' + 1 - 1 = g' from rfl,
            rowGroups_succ, ExtractState.mk.injEq]
          refine ⟨?_, ?_, by omega, rfl⟩
          · simp
          · congr 1 <;> omega

/-- The row-0 tail of the extraction loop, entered at column 32 with an empty
buffer: the first flush is suppressed, so the output gains exactly the
completed groups. -/
lemma extractCols_zero_spec (img : Img) (w M : Nat) (g : Nat) (st : ExtractState)
    (hb : st.buffer = 0) (hdone : st.done = false) :
    extractCols img w M 0 32 (8*g) st =
      (if M*8 + 32 < 32 + 8*g then
        ⟨st.out ++ rowGroups img 0 32 M, 0, st.bits + 8*M, true⟩
      else if g = 0 then st
      else
        ⟨st.out ++ rowGroups img 0 32 (g - 1), lsbByte img 0 (32 + 8*(g-1)),
         st.bits + 8*g, false⟩) := by
  cases g with
  | zero =>
    show st = _
    rw [if_neg (by omega), if_pos rfl]
  | succ g =>
    by_cases hM : M = 0
    · subst hM
      rw [show 8*(g+1) = 8*g + 8 from by ring,
        extractCols_done_noflush img w 0 32 (8*g+8) st (by omega) (by omega) (by omega),
        if_pos (by omega), ExtractState.mk.injEq]
      refine ⟨?_, hb, by omega, rfl⟩
      simp [rowGroups]
    · rw [show 8*(g+1) = 8*g + 8 from by ring,
        extractCols_group img w M 0 32 (8*g) st (by omega) (by omega) (by omega) (Or.inr hb),
        if_neg (by omega),
        extractCols_row_spec img w M 0 g (32+8)
          ⟨st.out, lsbByte img 0 32, st.bits + 8, st.done⟩
          (by omega) (by omega) (by omega) hdone (by omega)]
      dsimp only
      obtain ⟨M', rfl⟩ : ∃ M', M = M' + 1 := ⟨M - 1, by omega⟩
      by_cases hA : (M'+1)*8 + 32 < 32 + 8*(g+1)
      · rw [if_pos (show (M'+1)*8 + 32 < (w*0)*3 + (32+8) + 8*g from by omega),
          if_pos (show (M'+1)*8 + 32 < 32 + (8*g + 8) from by omega),
          show ((M'+1)*8 + 32 - ((w*0)*3 + (32+8))) / 8 = M' from by omega,
          rowGroups_succ, ExtractState.mk.injEq]
        refine ⟨?_, rfl, by omega, rfl⟩
        simp
      · rw [if_neg (show ¬((M'+1)*8 + 32 < (w*0)*3 + (32+8) + 8*g) from by omega),
          if_neg (show ¬((M'+1)*8 + 32 < 32 + (8*g + 8)) from by omega),
          if_neg (show ¬(g + 1 = 0) from by omega)]
        by_cases hg : g = 0
        · subst hg
          rw [if_pos rfl, ExtractState.mk.injEq]
          refine ⟨?_, ?_, by omega, hdone⟩
          · simp [rowGroups]
          · congr 1 <;> omega
        · rw [if_neg hg]
          obtain ⟨g', rfl⟩ : ∃ g', g = g' + 1 := ⟨g - 1, by omega⟩
          rw [show g' + 1 + 1 - 1 = g' + 1 from rfl, show g' + 1 - 1 = g' from rfl,
            rowGroups_succ, ExtractState.mk.injEq]
          refine ⟨?_, ?_, by omega, rfl⟩
          · simp
          · congr 1 <;> omega

lemma row_mul_mod (w r : Nat) (hW8 : w*3 % 8 = 0) : (w*r)*3 % 8 = 0 := by
  obtain ⟨u, hu⟩ : ∃ u, w*3 = 8*u := ⟨w*3/8, by omega⟩
  have h1 : (w*r)*3 = 8*(u*r) := by
    calc (w*r)*3 = (w*3)*r := by ring
      _ = (8*u)*r := by rw [hu]
      _ = 8*(u*r) := by ring
  omega

lemma wr3_eq (w r : Nat) : (w*r)*3 = w*3*r := by ring

/-- A payload group whose eight carrier bytes lie inside row `r` starting at
column `c`. -/
lemma grp_eq_lsbByte (img : Img) (w r c j : Nat) (h : 32 + 8*j = w*3*r + c)
    (hc : c < w*3) :
    grp img w j = lsbByte img r c := by
  unfold grp
  rw [h, show w*3*r + c = (w*3)*r + c from rfl, Nat.mul_add_div (by omega),
    Nat.mul_add_mod, Nat.div_eq_of_lt hc, Nat.mod_eq_of_lt hc, Nat.add_zero]

lemma allGroups_snoc (img : Img) (w n : Nat) :
    allGroups img w (n+1) = allGroups img w n ++ [grp img w n] := by
  unfold allGroups
  rw [List.range_succ, List.map_append, List.map_singleton]

lemma rowGroups_snoc (img : Img) (r c k : Nat) :
    rowGroups img r c (k+1) = rowGroups img r c k ++ [lsbByte img r (c + 8*k)] := by
  unfold rowGroups
  rw [List.range_succ, List.map_append, List.map_singleton]

/-- The groups of one row, in terms of absolute group indices. -/
lemma allGroups_extend (img : Img) (w r c : Nat) : ∀ (k n : Nat),
    32 + 8*n = w*3*r + c → c + 8*k ≤ w*3 →
    allGroups img w (n + k) = allGroups img w n ++ rowGroups img r c k := by
  intro k
  induction k with
  | zero =>
    intro n h hck
    simp [rowGroups, allGroups]
  | succ k ih =>
    intro n h hck
    rw [show n + (k+1) = (n + k) + 1 from by omega, allGroups_snoc, rowGroups_snoc,
      ih n h (by omega), List.append_assoc,
      grp_eq_lsbByte img w r (c + 8*k) (n + k) (by omega) (by omega)]

/-- Prefix groups, the pending group, and the groups of a fresh row combine
into a single prefix of groups. -/
lemma allGroups_row_extend (img : Img) (w r n k : Nat)
    (h : 8*n = w*3*r - 32) (hr32 : 32 ≤ w*3*r) (h1 : 1 ≤ n) (hk : 8*k ≤ w*3) :
    allGroups img w (n - 1) ++ grp img w (n - 1) :: rowGroups img r 0 k
      = allGroups img w (n + k) := by
  obtain ⟨n', rfl⟩ : ∃ n', n = n' + 1 := ⟨n-1, by omega⟩
  rw [show n' + 1 - 1 = n' from rfl,
    show grp img w n' :: rowGroups img r 0 k = [grp img w n'] ++ rowGroups img r 0 k from rfl,
    ← List.append_assoc, ← allGroups_snoc,
    ← allGroups_extend img w r 0 k (n'+1) (by omega) (by omega)]

/-- `extractCols_row_spec` with the fuel given as any multiple of eight. -/
lemma extractCols_row_spec' (img : Img) (w M r fuel : Nat) (st : ExtractState)
    (hfuel : fuel % 8 = 0) (hp8 : (w*r)*3 % 8 = 0) (hr : 0 < r) (hdone : st.done = false)
    (hPT : (w*r)*3 ≤ M*8 + 32) :
    extractCols img w M r 0 fuel st =
      (if M*8 + 32 < (w*r)*3 + fuel then
        ⟨st.out ++ st.buffer :: rowGroups img r 0 ((M*8 + 32 - (w*r)*3) / 8),
         0, st.bits + (M*8 + 32 - (w*r)*3), true⟩
      else if fuel = 0 then st
      else
        ⟨st.out ++ st.buffer :: rowGroups img r 0 (fuel/8 - 1),
         lsbByte img r (8*(fuel/8 - 1)), st.bits + fuel, false⟩) := by
  obtain ⟨g, rfl⟩ : ∃ g, fuel = 8*g := ⟨fuel/8, by omega⟩
  rw [extractCols_row_spec img w M r g 0 st (by omega) hp8 (Or.inr hr) hdone (by omega),
    show (8*g)/8 = g from by omega]
  simp only [Nat.add_zero, Nat.zero_add]
  by_cases hA : M*8 + 32 < (w*r)*3 + 8*g
  · rw [if_pos hA, if_pos hA]
  · rw [if_neg hA, if_neg hA]
    by_cases hg : g = 0
    · subst hg
      rfl
    · rw [if_neg hg, if_neg (by omega)]

/-- `extractCols_zero_spec` with the fuel given as any multiple of eight. -/
lemma extractCols_zero_spec' (img : Img) (w M fuel : Nat) (st : ExtractState)
    (hfuel : fuel % 8 = 0) (hb : st.buffer = 0) (hdone : st.done = false) :
    extractCols img w M 0 32 fuel st =
      (if M*8 + 32 < 32 + fuel then
        ⟨st.out ++ rowGroups img 0 32 M, 0, st.bits + 8*M, true⟩
      else if fuel = 0 then st
      else
        ⟨st.out ++ rowGroups img 0 32 (fuel/8 - 1), lsbByte img 0 (32 + 8*(fuel/8 - 1)),
         st.bits + fuel, false⟩) := by
  obtain ⟨g, rfl⟩ : ∃ g, fuel = 8*g := ⟨fuel/8, by omega⟩
  rw [extractCols_zero_spec img w M g st hb hdone, show (8*g)/8 = g from by omega]
  by_cases hA : M*8 + 32 < 32 + 8*g
  · rw [if_pos hA, if_pos hA]
  · rw [if_neg hA, if_neg hA]
    by_cases hg : g = 0
    · subst hg
      rfl
    · rw [if_neg hg, if_neg (by omega)]

lemma extractRows_done (img : Img) (w M : Nat) : ∀ (fr r : Nat) (st : ExtractState),
    st.done = true → extractRows img w M fr r st = st := by
  intro fr
  cases fr with
  | zero =>
    intro r st h
    rfl
  | succ fr =>
    intro r st h
    simp only [extractRows]
    rw [if_pos h]

/-- The row loop of extraction from a row `r ≥ 1` onward, starting from the
invariant state (all groups before row `r` read; the last one pending in the
buffer).  Either the termination position lies within the remaining rows and
extraction stops with exactly `M` output bytes, or the image is exhausted
with the last fully read group never flushed. -/
lemma extractRows_spec (img : Img) (w M : Nat) (hW8 : w*3 % 8 = 0) (hW32 : 32 ≤ w*3) :
    ∀ (fr r : Nat), 1 ≤ r → w*3*r ≤ M*8 + 32 →
    extractRows img w M fr r
      ⟨allGroups img w ((w*3*r - 32)/8 - 1), grp img w ((w*3*r - 32)/8 - 1),
       w*3*r - 32, false⟩ =
      (if M*8 + 32 < w*3*(r + fr) then ⟨allGroups img w M, 0, M*8, true⟩
      else
        ⟨allGroups img w ((w*3*(r + fr) - 32)/8 - 1), grp img w ((w*3*(r + fr) - 32)/8 - 1),
         w*3*(r + fr) - 32, false⟩) := by
  have hW40 : 40 ≤ w*3 := by omega
  intro fr
  induction fr with
  | zero =>
    intro r hr hT
    rw [show r + 0 = r from rfl, if_neg (by omega)]
    rfl
  | succ fr ih =>
    intro r hr hT
    have hmul : w*3*(r+1) = w*3*r + w*3 := by ring
    have hrm : (w*r)*3 = w*3*r := by ring
    have hge : w*3 ≤ w*3*r := Nat.le_mul_of_pos_right (w*3) (by omega)
    have hEq : extractRows img w M (fr+1) r
        ⟨allGroups img w ((w*3*r - 32)/8 - 1), grp img w ((w*3*r - 32)/8 - 1),
         w*3*r - 32, false⟩
        = extractRows img w M fr (r+1)
            (extractCols img w M r 0 (w*3)
              ⟨allGroups img w ((w*3*r - 32)/8 - 1), grp img w ((w*3*r - 32)/8 - 1),
               w*3*r - 32, false⟩) := by
      simp only [extractRows]
      rw [if_neg (by simp), if_neg (by omega)]
    rw [hEq,
      extractCols_row_spec' img w M r (w*3) _ hW8 (row_mul_mod w r hW8) (by omega) rfl
        (by omega)]
    by_cases hA : M*8 + 32 < (w*r)*3 + w*3
    · rw [if_pos hA]
      dsimp only
      rw [extractRows_done img w M fr (r+1) _ rfl, if_pos (by
        have h2 : w*3*(r+1) ≤ w*3*(r + (fr+1)) := Nat.mul_le_mul_left _ (by omega)
        omega)]
      rw [ExtractState.mk.injEq]
      have hmod : (w*3*r) % 8 = 0 := by
        have := row_mul_mod w r hW8
        omega
      refine ⟨?_, rfl, by omega, rfl⟩
      rw [allGroups_row_extend img w r ((w*3*r - 32)/8) ((M*8 + 32 - (w*r)*3) / 8)
        (by omega) (by omega) (by omega) (by omega)]
      congr 1
      omega
    · rw [if_neg hA, if_neg (by omega)]
      dsimp only
      have hmod : (w*3*r) % 8 = 0 := by
        have := row_mul_mod w r hW8
        omega
      have hst : (⟨allGroups img w ((w*3*r - 32)/8 - 1) ++
            grp img w ((w*3*r - 32)/8 - 1) :: rowGroups img r 0 (w*3/8 - 1),
            lsbByte img r (8*(w*3/8 - 1)), w*3*r - 32 + w*3, false⟩ : ExtractState)
          = ⟨allGroups img w ((w*3*(r+1) - 32)/8 - 1), grp img w ((w*3*(r+1) - 32)/8 - 1),
             w*3*(r+1) - 32, false⟩ := by
        rw [ExtractState.mk.injEq]
        refine ⟨?_, ?_, by omega, rfl⟩
        · rw [allGroups_row_extend img w r ((w*3*r - 32)/8) (w*3/8 - 1)
            (by omega) (by omega) (by omega) (by omega)]
          congr 1
          omega
        · rw [grp_eq_lsbByte img w r (8*(w*3/8 - 1)) ((w*3*(r+1) - 32)/8 - 1)
            (by omega) (by omega)]
      rw [hst, ih (r+1) (by omega) (by omega),
        show r + 1 + fr = r + (fr + 1) from by omega]

/-- Full extraction on an image with byte-aligned rows: if the stopping
position lies strictly inside the image the output is the first `M` payload
groups and `done_extracting` is set; otherwise the loops run off the end of
the image with the last fully assembled group still pending in the buffer
and `done_extracting` never set. -/
lemma extract_data_spec (img : Img) (w h : Nat) (hW8 : w*3 % 8 = 0) (hW32 : 32 ≤ w*3)
    (hh : 1 ≤ h) :
    extract_data w h img =
      (decode_header img,
        if decode_header img * 8 + 32 < w*3*h then
          ⟨allGroups img w (decode_header img), 0, decode_header img * 8, true⟩
        else
          ⟨allGroups img w ((w*3*h - 32)/8 - 1), grp img w ((w*3*h - 32)/8 - 1),
           w*3*h - 32, false⟩) := by
  have hW48 : 48 ≤ w*3 := by omega
  unfold extract_data
  rw [if_neg (by omega), Prod.mk.injEq]
  refine ⟨rfl, ?_⟩
  generalize decode_header img = M
  obtain ⟨fh, rfl⟩ : ∃ fh, h = fh + 1 := ⟨h - 1, by omega⟩
  simp only [extractRows]
  rw [if_neg (by simp), if_pos trivial,
    extractCols_zero_spec' img w M (w*3 - 32) _ (by omega) rfl rfl]
  by_cases hA : M*8 + 32 < 32 + (w*3 - 32)
  · rw [if_pos hA]
    dsimp only
    have hmono : w*3*1 ≤ w*3*(fh+1) := Nat.mul_le_mul_left (w*3) (by omega)
    have h1 : w*3*1 = w*3 := by ring
    rw [extractRows_done img w M fh 1 _ rfl, if_pos (by omega), ExtractState.mk.injEq]
    refine ⟨?_, rfl, by omega, rfl⟩
    have he := allGroups_extend img w 0 32 M 0 (by omega) (by omega)
    simp only [Nat.zero_add] at he
    rw [List.nil_append, he, show allGroups img w 0 = ([] : List Nat) from rfl,
      List.nil_append]
  · rw [if_neg hA, if_neg (by omega)]
    dsimp only
    have hinv : (⟨[] ++ rowGroups img 0 32 ((w*3 - 32)/8 - 1),
        lsbByte img 0 (32 + 8*((w*3 - 32)/8 - 1)), 0 + (w*3 - 32), false⟩ : ExtractState)
        = ⟨allGroups img w ((w*3*1 - 32)/8 - 1), grp img w ((w*3*1 - 32)/8 - 1),
           w*3*1 - 32, false⟩ := by
      have h1 : w*3*1 = w*3 := by ring
      rw [ExtractState.mk.injEq]
      refine ⟨?_, ?_, by omega, rfl⟩
      · have he := allGroups_extend img w 0 32 ((w*3 - 32)/8 - 1) 0 (by omega) (by omega)
        simp only [Nat.zero_add] at he
        rw [List.nil_append, show (w*3*1 - 32)/8 - 1 = (w*3 - 32)/8 - 1 from by omega, he,
          show allGroups img w 0 = ([] : List Nat) from rfl, List.nil_append]
      · rw [grp_eq_lsbByte img w 0 (32 + 8*((w*3 - 32)/8 - 1)) ((w*3*1 - 32)/8 - 1)
          (by omega) (by omega)]
    have h1 : w*3*1 = w*3 := by ring
    rw [hinv, extractRows_spec img w M hW8 hW32 fh 1 (by omega) (by omega),
      show 1 + fh = fh + 1 from by omega]

/-! ## Round trip: extraction after embedding -/

lemma decide_toNat_eq (b : Bool) : (decide (b.toNat % 2 = 1)) = b := by
  cases b <;> rfl

lemma toNat_mod_two (b : Bool) : b.toNat % 2 = b.toNat := by
  cases b <;> rfl

lemma toNat_eq_one (b : Bool) : (b.toNat = 1) = (b = true) := by
  cases b <;> simp

lemma toNat_testBit_high (b : Bool) (n : Nat) (h : n ≠ 0) : b.toNat.testBit n = false := by
  apply Nat.testBit_lt_two_pow
  calc b.toNat < 2 := by cases b <;> norm_num
    _ = 2^1 := by norm_num
    _ ≤ 2^n := Nat.pow_le_pow_right (by norm_num) (by omega)

lemma testBit_shifted_mod_high (x i k : Nat) (h : i < k) :
    Nat.testBit ((x % 2) <<< i) k = false := by
  rw [Nat.testBit_shiftLeft]
  have hz : Nat.testBit (x % 2) (k - i) = false := by
    apply Nat.testBit_lt_two_pow
    calc x % 2 < 2 := Nat.mod_lt _ (by norm_num)
      _ = 2^1 := by norm_num
      _ ≤ 2^(k-i) := Nat.pow_le_pow_right (by norm_num) (by omega)
  rw [hz, Bool.and_false]

/-- If the eight carrier LSBs hold the bits of a byte `m`, the assembled
buffer equals `m`. -/
lemma lsbByte_eq (img : Img) (r c m : Nat) (hm : m < 256)
    (hbits : ∀ i, i < 8 → img r (c+i) % 2 = (m.testBit i).toNat) :
    lsbByte img r c = m := by
  apply Nat.eq_of_testBit_eq
  intro k
  by_cases hk : k < 8
  · have h0 := hbits 0 (by omega)
    have h1 := hbits 1 (by omega)
    have h2 := hbits 2 (by omega)
    have h3 := hbits 3 (by omega)
    have h4 := hbits 4 (by omega)
    have h5 := hbits 5 (by omega)
    have h6 := hbits 6 (by omega)
    have h7 := hbits 7 (by omega)
    rw [Nat.add_zero] at h0
    interval_cases k <;>
      simp [lsbByte, Nat.testBit_lor, Nat.testBit_shiftLeft, h0, h1, h2, h3, h4, h5, h6, h7,
        decide_toNat_eq, toNat_mod_two, toNat_eq_one, toNat_testBit_high]
  · have hmk : m.testBit k = false :=
      Nat.testBit_lt_two_pow (lt_of_lt_of_le hm (by
        calc (256:Nat) = 2^8 := by norm_num
          _ ≤ 2^k := Nat.pow_le_pow_right (by norm_num) (by omega)))
    rw [hmk]
    unfold lsbByte
    simp only [Nat.testBit_lor,
      testBit_shifted_mod_high _ 0 k (by omega), testBit_shifted_mod_high _ 1 k (by omega),
      testBit_shifted_mod_high _ 2 k (by omega), testBit_shifted_mod_high _ 3 k (by omega),
      testBit_shifted_mod_high _ 4 k (by omega), testBit_shifted_mod_high _ 5 k (by omega),
      testBit_shifted_mod_high _ 6 k (by omega), testBit_shifted_mod_high _ 7 k (by omega),
      Nat.zero_testBit, Bool.or_false]

/-- Payload group `j` of the embedded image is byte `j` of the message
(aligned rows, group strictly inside the image). -/
lemma grp_embed (w h : Nat) (img : Img) (len : Nat) (msg : List Nat)
    (hW8 : w*3 % 8 = 0) (hW32 : 32 ≤ w*3) (hh : 1 ≤ h) (j : Nat)
    (hjL : j < msg.length) (hj : 32 + 8*j + 8 ≤ w*3*h)
    (hbyte : msg.getD j 0 < 256) :
    grp ((embed_data w h img len msg).img) w j = msg.getD j 0 := by
  have hpos : 0 < w*3 := by omega
  have hdm : w*3*((32+8*j)/(w*3)) + (32+8*j)%(w*3) = 32+8*j := Nat.div_add_mod _ _
  have hc8 : (32+8*j)%(w*3) % 8 = 0 := by
    rw [Nat.mod_mod_of_dvd _ (by omega : (8:Nat) ∣ w*3)]
    omega
  have hclt : (32+8*j)%(w*3) < w*3 := Nat.mod_lt _ hpos
  have hr0 : (32+8*j)/(w*3) < h := by
    rw [Nat.div_lt_iff_lt_mul hpos]
    have hring : h*(w*3) = w*3*h := by ring
    omega
  unfold grp
  refine lsbByte_eq _ _ _ _ hbyte ?_
  intro i hi
  rw [embed_data_spec_aligned w h img len msg hW8 hW32 hh]
  rw [if_neg (by
    rintro ⟨hq1, hq2⟩
    rw [hq1, Nat.mul_zero] at hdm
    omega)]
  rw [if_pos (by exact ⟨hr0, by omega, by omega, by omega⟩)]
  rw [setLSB_mod_two,
    show (w*3*((32+8*j)/(w*3)) + ((32+8*j)%(w*3)+i) - 32)/8 = j from by omega,
    show ((32+8*j)%(w*3)+i) % 8 = i from by omega]

/-- The first `L` payload groups of the embedded image are the message. -/
lemma allGroups_embed (w h : Nat) (img : Img) (len : Nat) (msg : List Nat)
    (hW8 : w*3 % 8 = 0) (hW32 : 32 ≤ w*3) (hh : 1 ≤ h)
    (hfits : 32 + 8*msg.length ≤ w*3*h)
    (hbytes : ∀ b ∈ msg, b < 256) :
    allGroups ((embed_data w h img len msg).img) w msg.length = msg := by
  apply List.ext_getElem
  · simp [allGroups]
  · intro j hj1 hj2
    simp only [allGroups, List.getElem_map, List.getElem_range]
    have hjL : j < msg.length := hj2
    rw [grp_embed w h img len msg hW8 hW32 hh j hjL (by omega)
      (by
        rw [List.getD_eq_getElem?_getD, List.getElem?_eq_getElem hjL]
        exact hbytes _ (List.getElem_mem hjL))]
    rw [List.getD_eq_getElem?_getD, List.getElem?_eq_getElem hjL]
    rfl

/-! ## Extraction reads only the header positions and in-bounds bytes -/

lemma decodeHeaderLoop_congr (img1 img2 : Img) : ∀ (fuel c acc : Nat),
    (∀ c', c ≤ c' → c' < c + fuel → img1 0 c' = img2 0 c') →
    decodeHeaderLoop img1 c fuel acc = decodeHeaderLoop img2 c fuel acc := by
  intro fuel
  induction fuel with
  | zero =>
    intro c acc h
    rfl
  | succ fuel ih =>
    intro c acc h
    show decodeHeaderLoop img1 (c+1) fuel _ = decodeHeaderLoop img2 (c+1) fuel _
    rw [h c (Nat.le_refl c) (by omega)]
    exact ih (c+1) _ (fun c' h1 h2 => h c' (by omega) (by omega))

lemma decode_header_congr (img1 img2 : Img)
    (h : ∀ c', c' < 32 → img1 0 c' = img2 0 c') :
    decode_header img1 = decode_header img2 :=
  decodeHeaderLoop_congr img1 img2 32 0 0 (fun c' _ h2 => h c' (by omega))

lemma extractCols_congr (img1 img2 : Img) (w M r : Nat) : ∀ (fuel c : Nat)
    (st : ExtractState),
    (∀ c', c ≤ c' → c' < c + fuel → img1 r c' = img2 r c') →
    extractCols img1 w M r c fuel st = extractCols img2 w M r c fuel st := by
  intro fuel
  induction fuel with
  | zero =>
    intro c st h
    rfl
  | succ fuel ih =>
    intro c st h
    simp only [extractCols]
    rw [h c (Nat.le_refl c) (by omega)]
    split_ifs <;> first
      | rfl
      | exact ih (c+1) _ (fun c' h1 h2 => h c' (by omega) (by omega))

lemma extractRows_congr (img1 img2 : Img) (w M : Nat) : ∀ (fr r : Nat) (st : ExtractState),
    (∀ r' c', r ≤ r' → r' < r + fr → c' < w*3 → img1 r' c' = img2 r' c') →
    extractRows img1 w M fr r st = extractRows img2 w M fr r st := by
  intro fr
  induction fr with
  | zero =>
    intro r st h
    rfl
  | succ fr ih =>
    intro r st h
    simp only [extractRows]
    split_ifs with hd hr0
    · rfl
    · subst hr0
      rw [extractCols_congr img1 img2 w M 0 (w*3 - 32) 32 st
        (fun c' h1 h2 => h 0 c' (by omega) (by omega) (by omega))]
      exact ih 1 _ (fun r' c' h1 h2 h3 => h r' c' (by omega) (by omega) h3)
    · rw [extractCols_congr img1 img2 w M r (w*3) 0 st
        (fun c' h1 h2 => h r c' (by omega) (by omega) (by omega))]
      exact ih (r+1) _ (fun r' c' h1 h2 h3 => h r' c' (by omega) (by omega) h3)

/-- Extraction depends only on the in-bounds bytes together with the first
32 bytes of row 0 (which the header loop reads unconditionally). -/
lemma extract_data_congr (w h : Nat) (img1 img2 : Img)
    (hagree : ∀ r c, (r < h ∧ c < w*3) ∨ (r = 0 ∧ c < 32) → img1 r c = img2 r c) :
    extract_data w h img1 = extract_data w h img2 := by
  unfold extract_data
  by_cases hh : h = 0
  · rw [if_pos hh, if_pos hh]
  · rw [if_neg hh, if_neg hh,
      decode_header_congr img1 img2 (fun c' hc => hagree 0 c' (Or.inr ⟨rfl, hc⟩)),
      extractRows_congr img1 img2 w (decode_header img2) h 0 _
        (fun r' c' h1 h2 h3 => hagree r' c' (Or.inl ⟨by omega, h3⟩))]

/-! ## The claims -/

/-- Claim C1 (corrected): round trip.  As stated the claim fails (see the
counterexample): the byte-alignment reset at each row boundary corrupts the
stream on widths whose row is not a multiple of eight bytes, and the
equality termination test loses the final byte when the stored data ends
exactly at the image end.  For images whose rows are a multiple of eight
bytes and whose capacity strictly exceeds `32 + 8L` bits, extraction after
embedding returns exactly the original payload. -/
theorem C1_round_trip (w h : Nat) (img : Img) (msg : List Nat)
    (hW8 : w*3 % 8 = 0) (hW32 : 32 ≤ w*3) (hh : 1 ≤ h)
    (hlen : msg.length < 2^32) (hbytes : ∀ b ∈ msg, b < 256)
    (hfit : 32 + 8 * msg.length < w*3*h) :
    extract_data w h (embed_data w h img msg.length msg).img
      = (msg.length, ⟨msg, 0, msg.length * 8, true⟩) := by
  have hd : decode_header (embed_data w h img msg.length msg).img = msg.length :=
    decode_header_embed w h img msg.length msg hh hlen
  rw [extract_data_spec _ w h hW8 hW32 hh, hd, if_pos (by omega),
    allGroups_embed w h img msg.length msg hW8 hW32 hh (by omega) hbytes]

theorem C1_round_trip_witness :
    extract_data 16 1 (embed_data 16 1 zeroImg 1 [171]).img
      = (1, ⟨[171], 0, 8, true⟩) :=
  C1_round_trip 16 1 zeroImg [171] (by decide) (by decide) (by decide) (by decide)
    (by decide) (by decide)

/-- Claim C1 counterexample: a 16x1 image has 48 carrier bytes, i.e. 6
payload bytes by the spec's capacity formula, so a 2-byte payload satisfies
`L ≤ capacity − 4`; yet after embedding `[171, 205]` extraction returns
only `[171]`: the stream ends exactly at the image end and the equality
test never fires before the image is exhausted. -/
theorem C1_round_trip_cex :
    2 ≤ specAvailableBytes 16 1 - 4
    ∧ (extract_data 16 1 (embed_data 16 1 zeroImg 2 [171, 205]).img).2.out
        ≠ [171, 205] := by
  decide

/-- Claim C2 (code bug): `calculate_available_space` computes `(w*h)*3`,
the bit capacity, and the program reports that very number as a byte
count: the division by 8 the spec prescribes is absent from the source.
For a 10x10 image the code reports 300 "bytes" where the spec's formula
gives 37. -/
theorem C2_capacity :
    (∀ w h : Nat, calculate_available_space w h = w * h * 3)
    ∧ calculate_available_space 10 10 = 300
    ∧ specAvailableBytes 10 10 = 37
    ∧ calculate_available_space 10 10 ≠ specAvailableBytes 10 10 :=
  ⟨fun _ _ => rfl, by decide, by decide, by decide⟩

/-- Claim C3 (confirmed): header fidelity.  For every value `v < 2^32`,
decoding the header of an image into which `v` was encoded recovers
exactly `v`. -/
theorem C3_header_fidelity (img : Img) (v : Nat) (hv : v < 2^32) :
    decode_header (embedHeaderLoop v 0 32 img) = v :=
  decode_header_embedHeaderLoop img v hv

theorem C3_header_fidelity_witness :
    decode_header (embedHeaderLoop 3735928559 0 32 zeroImg) = 3735928559 :=
  C3_header_fidelity zeroImg 3735928559 (by decide)

/-- Claim C4 (corrected): the spec's bit-packer contract holds only for
images whose rows are a multiple of eight bytes (the counterexample shows
the general failure): under that restriction payload bit `k` lands in the
LSB of carrier byte `32+k`, LSB-first within each payload byte. -/
theorem C4_bit_packer (w h : Nat) (img : Img) (len : Nat) (msg : List Nat)
    (hW8 : w*3 % 8 = 0) (hW32 : 32 ≤ w*3) (hh : 1 ≤ h) :
    specBitPacker w h img len msg := by
  intro k hk hkb
  unfold carrierLSB
  have hpos : 0 < w*3 := by omega
  have hdm : w*3*((32+k)/(w*3)) + (32+k)%(w*3) = 32+k := Nat.div_add_mod _ _
  have hm : (32+k)%(w*3) < w*3 := Nat.mod_lt _ hpos
  have hc8 : (32+k)%(w*3) % 8 = (32+k) % 8 := Nat.mod_mod_of_dvd _ (by omega)
  have hr : (32+k)/(w*3) < h := by
    rw [Nat.div_lt_iff_lt_mul hpos]
    have hring : h*(w*3) = w*h*3 := by ring
    omega
  rw [embed_data_spec_aligned w h img len msg hW8 hW32 hh,
    if_neg (by
      rintro ⟨hq1, hq2⟩
      rw [hq1, Nat.mul_zero] at hdm
      omega),
    if_pos ⟨hr, by omega, by omega, by omega⟩,
    setLSB_mod_two,
    show (w*3*((32+k)/(w*3)) + (32+k)%(w*3) - 32)/8 = k/8 from by omega,
    show (32+k)%(w*3) % 8 = k % 8 from by omega]

theorem C4_bit_packer_witness : specBitPacker 16 1 zeroImg 1 [171] :=
  C4_bit_packer 16 1 zeroImg 1 [171] (by decide) (by decide) (by decide)

/-- Claim C4 counterexample: on a 13x2 image (39 bytes per row) the
embedder restarts byte alignment at each row, so payload bit 7 of the
single byte 128 never reaches carrier index 39: the packer contract fails
on widths whose row is not a multiple of eight bytes. -/
theorem C4_bit_packer_cex : ¬ specBitPacker 13 2 zeroImg 1 [128] := by
  unfold specBitPacker
  decide

/-- Claim C5 (corrected): what the truncation stage actually does.  The
prompt threshold compares the byte count of the file against
`available_space`, which holds bits (see C2), so declining aborts only
when the file exceeds the bit count; a file between the byte capacity and
the bit capacity is embedded with no confirmation at all; accepting sets
`message_length` to the bit capacity rather than to `available_bytes`; and
the number of bits embedded is `min(capacity − 32, 8·filesize)` regardless
of `message_length`, which the payload loop never consults. -/
theorem C5_truncation (w h : Nat) (img : Img) (file : List Nat) (confirm : Bool)
    (hW8 : w*3 % 8 = 0) (hW32 : 32 ≤ w*3) (hh : 1 ≤ h) :
    ((w*h)*3 < file.length → embed_op w h img file false = none)
    ∧ ((w*h)*3 < file.length →
        embed_op w h img file true = some (embed_data w h img ((w*h)*3) file))
    ∧ (file.length ≤ (w*h)*3 →
        embed_op w h img file confirm = some (embed_data w h img file.length file))
    ∧ (∀ len : Nat, (embed_data w h img len file).bits
        = min (w*3*h - 32) (8 * file.length)) := by
  refine ⟨?_, ?_, ?_, fun len => embed_data_bits_aligned w h img len file hW8 hW32 hh⟩
  · intro hlt
    unfold embed_op check_message_size calculate_available_space
    rw [if_pos hlt]
    rfl
  · intro hlt
    unfold embed_op check_message_size calculate_available_space
    rw [if_pos hlt]
    rfl
  · intro hle
    unfold embed_op check_message_size calculate_available_space
    rw [if_neg (by omega)]

theorem C5_truncation_witness :
    embed_op 16 1 zeroImg (List.replicate 49 7) false = none
    ∧ (embed_data 16 1 zeroImg 48 (List.replicate 49 7)).bits
        = min (16*3*1 - 32) (8 * (List.replicate 49 7).length) :=
  ⟨(C5_truncation 16 1 zeroImg (List.replicate 49 7) false (by decide) (by decide)
      (by decide)).1 (by decide),
   (C5_truncation 16 1 zeroImg (List.replicate 49 7) false (by decide) (by decide)
      (by decide)).2.2.2 48⟩

/-- Claim C5 counterexample: a 7-byte file exceeds the 6-byte capacity of
a 16x1 image, yet no confirmation is requested, the operation is not
aborted even though the answer on record is "no", and the pixel buffer is
mutated. -/
theorem C5_truncation_cex :
    specAvailableBytes 16 1 = 6
    ∧ (embed_op 16 1 zeroImg [1,2,3,4,5,6,7] false).isSome = true
    ∧ (embed_op 16 1 zeroImg [1,2,3,4,5,6,7] false).elim 0 (fun st => st.img 0 32) = 1
    ∧ zeroImg 0 32 = 0 := by
  decide

/-- Claim C6 (corrected): on images with byte-aligned rows, when the
header claims more data than the image holds, extraction keeps the bytes
decoded before exhaustion, produces fewer than `L` bytes, and the only
incomplete-extraction signal is `done_extracting` remaining unset (the
function's return value does not change).  Without the alignment
restriction the emitted byte count can even exceed `L` (see the
counterexample). -/
theorem C6_incomplete (img : Img) (w h : Nat)
    (hW8 : w*3 % 8 = 0) (hW32 : 32 ≤ w*3) (hh : 1 ≤ h)
    (hL : w*3*h ≤ decode_header img * 8 + 32) :
    (extract_data w h img).2.done = false
    ∧ (extract_data w h img).2.out = allGroups img w ((w*3*h - 32)/8 - 1)
    ∧ (extract_data w h img).2.out.length < decode_header img := by
  have hge : w*3 ≤ w*3*h := Nat.le_mul_of_pos_right (w*3) (by omega)
  have hm8 : w*3*h % 8 = 0 := by
    obtain ⟨u, hu⟩ : ∃ u, w*3 = 8*u := ⟨w*3/8, by omega⟩
    have hx : w*3*h = 8*(u*h) := by rw [hu]; ring
    omega
  rw [extract_data_spec img w h hW8 hW32 hh]
  dsimp only
  rw [if_neg (by omega)]
  refine ⟨rfl, rfl, ?_⟩
  simp only [allGroups, List.length_map, List.length_range]
  omega

theorem C6_incomplete_witness :
    (extract_data 16 1 (imgHdr 3)).2.done = false
    ∧ (extract_data 16 1 (imgHdr 3)).2.out = allGroups (imgHdr 3) 16 ((16*3*1 - 32)/8 - 1)
    ∧ (extract_data 16 1 (imgHdr 3)).2.out.length < decode_header (imgHdr 3) :=
  C6_incomplete (imgHdr 3) 16 1 (by decide) (by decide) (by decide) (by decide)

set_option maxRecDepth 40000 in
/-- Claim C6 counterexample: an 11x10 image (330 carrier bytes) whose
header claims 38 bytes lacks the needed 336 carrier bytes, yet extraction
emits 45 bytes — more than the claimed length — because the per-row
alignment reset flushes extra bytes on 33-byte rows. -/
theorem C6_incomplete_cex :
    decode_header (imgHdr 38) = 38
    ∧ 11*3*10 < 32 + 8*38
    ∧ ¬ ((extract_data 11 10 (imgHdr 38)).2.out.length < 38) := by
  decide

/-- Claim C7 (confirmed): embedding alters no bit above the LSB of any
byte, and leaves every in-bounds carrier byte at linear index at or beyond
`32 + 8L` byte-for-byte unchanged, for every image and payload. -/
theorem C7_frame (w h : Nat) (img : Img) (len : Nat) (msg : List Nat) :
    (∀ r' c', (embed_data w h img len msg).img r' c' / 2 = img r' c' / 2)
    ∧ (∀ r' c', c' < w*3 → 32 + 8 * msg.length ≤ w*3*r' + c' →
        (embed_data w h img len msg).img r' c' = img r' c') := by
  by_cases hh : 1 ≤ h
  · obtain ⟨E1, _⟩ := embed_data_spec w h img len msg hh
    constructor
    · intro r' c'
      rw [E1 r' c']
      split_ifs with h1 h2 h3
      · rcases h1 with ⟨rfl, -⟩
        rw [setLSB_div_two]
      · rcases h2 with ⟨rfl, -, -⟩
        rw [setLSB_div_two]
      · rw [setLSB_div_two]
      · rfl
    · intro r' c' hc hout
      rw [E1 r' c']
      have hQ : w*3 ≤ 8 * ((w*3+7)/8) := by omega
      split_ifs with h1 h2 h3
      · rcases h1 with ⟨rfl, h1b⟩
        omega
      · rcases h2 with ⟨rfl, h2b, h2c⟩
        omega
      · exfalso
        obtain ⟨h3a, h3b, h3c, h3d⟩ := h3
        obtain ⟨r'', rfl⟩ : ∃ r'', r' = r'' + 1 := ⟨r' - 1, by omega⟩
        rw [show r'' + 1 - 1 = r'' from rfl] at h3d
        have hr1 : w*3*(r''+1) = w*3*r'' + w*3 := by ring
        have hle : w*3*r'' ≤ 8*((w*3+7)/8)*r'' := Nat.mul_le_mul hQ (Nat.le_refl r'')
        have hD : w*3 - 32 ≤ 8*((w*3 - 32 + 7)/8) := by omega
        omega
      · rfl
  · have h0 : (embed_data w h img len msg).img = img := by
      rw [show h = 0 from by omega]
      rfl
    rw [h0]
    exact ⟨fun r' c' => rfl, fun r' c' hc hout => rfl⟩

theorem C7_frame_witness :
    (embed_data 16 1 zeroImg 1 [171]).img 0 45 = zeroImg 0 45
    ∧ (embed_data 16 1 zeroImg 1 [171]).img 0 10 / 2 = zeroImg 0 10 / 2 :=
  ⟨(C7_frame 16 1 zeroImg 1 [171]).2 0 45 (by decide) (by decide),
   (C7_frame 16 1 zeroImg 1 [171]).1 0 10⟩

/-- Claim C8 (corrected): for images whose row 0 holds at least 32 bytes,
bit `i` of `message_length` is written into the LSB of carrier byte `i`
with the seven higher bits untouched.  On narrower images the 32 header
writes run past the end of row 0 instead of wrapping to the next row, so
the placement contract fails and the payload can even start before carrier
index 32 (see the counterexample); no rejection of such images exists in
the source. -/
theorem C8_header (w h : Nat) (img : Img) (len : Nat) (msg : List Nat)
    (hW32 : 32 ≤ w*3) (hh : 1 ≤ h) :
    specHeaderPlacement w h img len msg
    ∧ ∀ i, i < 32 → (embed_data w h img len msg).img 0 i / 2 = img 0 i / 2 := by
  obtain ⟨E1, _⟩ := embed_data_spec w h img len msg hh
  constructor
  · intro i hi him
    unfold carrierLSB
    have hdiv : i / (w*3) = 0 := Nat.div_eq_of_lt (by omega)
    have hmod : i % (w*3) = i := Nat.mod_eq_of_lt (by omega)
    rw [hdiv, hmod, E1 0 i, if_pos ⟨rfl, hi⟩, setLSB_mod_two]
  · intro i hi
    rw [E1 0 i, if_pos ⟨rfl, hi⟩, setLSB_div_two]

theorem C8_header_witness :
    specHeaderPlacement 16 1 zeroImg 5 []
    ∧ ∀ i, i < 32 → (embed_data 16 1 zeroImg 5 []).img 0 i / 2 = zeroImg 0 i / 2 :=
  C8_header 16 1 zeroImg 5 [] (by decide) (by decide)

/-- Claim C8 counterexample: on a 10x2 image rows hold 30 bytes, so
carrier index 30 is row 1, byte 0; the header loop instead writes its bit
30 out of bounds at row 0, byte 30, and the payload loop then writes
payload bit 0 into carrier index 30 — before index 32. -/
theorem C8_header_cex : ¬ specHeaderPlacement 10 2 zeroImg 1 [255] := by
  unfold specHeaderPlacement
  decide

/-- Claim C9 (code bug): nothing rejects undersized images.
`calculate_available_space` returns 3 for a 1x1 image and
`check_message_size` proceeds; the header loops run unconditionally over
row-0 indices 0..31; two images agreeing on every in-bounds byte of a 1x1
image decode to different header values, so the decoder reads past the end
of row 0; and the encoder writes header bit 10 at row-0 index 10, also
past the end. -/
theorem C9_no_reject :
    calculate_available_space 1 1 = 3
    ∧ check_message_size 0 (calculate_available_space 1 1) false = some 0
    ∧ (∀ r, r < 1 → ∀ c, c < 1*3 → zeroImg r c = imgTail r c)
    ∧ decode_header zeroImg = 0
    ∧ decode_header imgTail = 4294967288
    ∧ (embed_data 1 1 zeroImg 1024 []).img 0 10 ≠ zeroImg 0 10 := by
  decide

/-- Claim C10 (corrected): extraction terminates with output bounded by
the image size, but its reads are not confined to the image: the footprint
is the in-bounds bytes plus row-0 bytes 0..31 unconditionally (the
counterexample exhibits an out-of-bounds read).  Two images agreeing on
that footprint extract identically, and on aligned images the output
length is at most `w*h*3`. -/
theorem C10_bounded (w h : Nat) (img1 img2 : Img)
    (hagree : ∀ r c, (r < h ∧ c < w*3) ∨ (r = 0 ∧ c < 32) → img1 r c = img2 r c)
    (hW8 : w*3 % 8 = 0) (hW32 : 32 ≤ w*3) (hh : 1 ≤ h) :
    extract_data w h img1 = extract_data w h img2
    ∧ (extract_data w h img1).2.out.length ≤ w*h*3 := by
  refine ⟨extract_data_congr w h img1 img2 hagree, ?_⟩
  have hge : w*3 ≤ w*3*h := Nat.le_mul_of_pos_right (w*3) (by omega)
  have hring : w*3*h = w*h*3 := by ring
  rw [extract_data_spec img1 w h hW8 hW32 hh]
  dsimp only
  by_cases hc : decode_header img1 * 8 + 32 < w*3*h
  · rw [if_pos hc]
    simp only [allGroups, List.length_map, List.length_range]
    omega
  · rw [if_neg hc]
    simp only [allGroups, List.length_map, List.length_range]
    omega

theorem C10_bounded_witness :
    extract_data 16 1 zeroImg = extract_data 16 1 zeroImg
    ∧ (extract_data 16 1 zeroImg).2.out.length ≤ 16*1*3 :=
  C10_bounded 16 1 zeroImg zeroImg (fun r c _ => rfl) (by decide) (by decide) (by decide)

set_option maxRecDepth 40000 in
/-- Claim C10 counterexample: `zeroImg` and `imgOOB` agree on every
in-bounds byte of a 10x10 image (rows hold 30 bytes; the difference is at
row-0 byte 31), yet extraction differs, because the header loop reads
index 31 regardless of the row length. -/
theorem C10_bounded_cex :
    (∀ r, r < 10 → ∀ c, c < 10*3 → zeroImg r c = imgOOB r c)
    ∧ extract_data 10 10 zeroImg ≠ extract_data 10 10 imgOOB := by
  decide

end PngStego
